import Mathlib

/-!
Verification of the asg-registry lease engine: a shallow embedding of the
`identifiers` SQLite table and of the four mutating operations the HTTP
handlers perform on it (`allocateHandler`, `livenessHandler`,
`releaseHandler` and the sweeper `releaseStaleIdentifiers`), together with
the pattern expansion that seeds the pool (`expandPattern`).

The store is the list of rows of the `identifiers` table in rowid
(insertion) order; `locked_by` and `last_seen` are nullable columns, so the
record carries them as `Option`.  Timestamps are integers.
-/

namespace AsgRegistry

/-- One row of the `identifiers` table: `identifier TEXT NOT NULL UNIQUE`,
`locked_by TEXT` (nullable), `last_seen TIMESTAMP` (nullable). -/
structure IdentRecord where
  value : String
  lockedBy : Option String
  lastSeen : Option Int
deriving DecidableEq, Repr

/-- The `identifiers` table in rowid order. -/
abbrev Store := List IdentRecord

/-- `SELECT ... FROM identifiers WHERE locked_by = ?` read through `QueryRow`:
the first row whose `locked_by` equals the given client (SQL `=` never
matches a NULL column). -/
def findByHolder (s : Store) (client : String) : Option IdentRecord :=
  s.find? (fun r => decide (r.lockedBy = some client))

/-- `SELECT ... FROM identifiers WHERE identifier = ?` read through
`QueryRow`: the first row with that identifier. -/
def findByValue (s : Store) (v : String) : Option IdentRecord :=
  s.find? (fun r => decide (r.value = v))

/-- `SELECT identifier FROM identifiers WHERE locked_by IS NULL LIMIT 1`:
the first free row. -/
def firstFree (s : Store) : Option IdentRecord :=
  s.find? (fun r => decide (r.lockedBy = none))

/-- Outcome of `allocateHandler`: 400 for a missing client_id, the JSON
`{"identifier": ...}` response, or 503 when no identifier is free. -/
inductive AllocResult where
  | badRequest
  | ok (identifier : String)
  | poolExhausted
deriving DecidableEq, Repr

/-- `allocateHandler` (src/handlers.go): reject an empty `client_id`; if the
client already holds a row, answer with that identifier and change nothing;
otherwise `UPDATE identifiers SET locked_by = ?, last_seen = ? WHERE
identifier IN (SELECT identifier FROM identifiers WHERE locked_by IS NULL
LIMIT 1) RETURNING identifier`, or 503 when the subquery is empty. -/
def allocate (s : Store) (client : String) (now : Int) : AllocResult × Store :=
  if client = "" then (.badRequest, s)
  else
    match findByHolder s client with
    | some r => (.ok r.value, s)
    | none =>
      match firstFree s with
      | none => (.poolExhausted, s)
      | some fr =>
        (.ok fr.value,
         s.map fun r =>
           if r.value = fr.value then
             { r with lockedBy := some client, lastSeen := some now }
           else r)

/-- Outcome of `livenessHandler`: 400, 404, a 500 when scanning the NULL
`locked_by` of a free row into a Go `string` fails, 409 with the actual
holder, or 200. -/
inductive RenewResult where
  | badRequest
  | notFound
  | scanError
  | conflict (actualHolder : String)
  | ok
deriving DecidableEq, Repr

/-- `livenessHandler` (src/handlers.go): reject empty fields; look the row up
by identifier (404 when absent); `Scan(&dbClientID)` with `dbClientID` a Go
`string` fails on a NULL `locked_by`, which the handler maps to a 500;
a different holder yields 409; otherwise `UPDATE identifiers SET last_seen =
? WHERE identifier = ? AND locked_by = ?`. -/
def renew (s : Store) (client ident : String) (now : Int) : RenewResult × Store :=
  if client = "" ∨ ident = "" then (.badRequest, s)
  else
    match findByValue s ident with
    | none => (.notFound, s)
    | some r =>
      match r.lockedBy with
      | none => (.scanError, s)
      | some h =>
        if h = client then
          (.ok,
           s.map fun r2 =>
             if r2.value = ident ∧ r2.lockedBy = some client then
               { r2 with lastSeen := some now }
             else r2)
        else (.conflict h, s)

/-- Outcome of `releaseHandler`: always the 200 success JSON (database
errors aside). -/
inductive ReleaseResult where
  | success
deriving DecidableEq, Repr

/-- `releaseHandler` (src/handlers.go): no input validation; `UPDATE
identifiers SET locked_by = NULL, last_seen = NULL WHERE identifier = ? AND
locked_by = ?`, then a success response regardless of the rows affected. -/
def release (s : Store) (client ident : String) : ReleaseResult × Store :=
  (.success,
   s.map fun r =>
     if r.value = ident ∧ r.lockedBy = some client then
       { r with lockedBy := none, lastSeen := none }
     else r)

/-- The sweep's row predicate: `last_seen < ? AND locked_by IS NOT NULL`
(a NULL `last_seen` compares to nothing, so it never matches). -/
def isStale (r : IdentRecord) (threshold : Int) : Bool :=
  (match r.lastSeen with
   | some ts => decide (ts < threshold)
   | none => false) && r.lockedBy.isSome

/-- The sweep body of `releaseStaleIdentifiers`: `UPDATE identifiers SET
locked_by = NULL, last_seen = NULL WHERE last_seen < ? AND locked_by IS NOT
NULL`, returning the rows affected. -/
def reclaimExpired (s : Store) (threshold : Int) : Nat × Store :=
  (s.countP (fun r => isStale r threshold),
   s.map fun r =>
     if isStale r threshold then { r with lockedBy := none, lastSeen := none }
     else r)

/-- One tick of `releaseStaleIdentifiers` (src database file): the threshold
is `time.Now().Add(-config.Server.StaleTimeout)`. -/
def reclaimStale (s : Store) (now staleTimeout : Int) : Nat × Store :=
  reclaimExpired s (now - staleTimeout)

/-- `INSERT OR IGNORE INTO identifiers (identifier) VALUES (?)`: append a
free row unless the identifier is already present (the UNIQUE constraint). -/
def seedInsert (s : Store) (v : String) : Store :=
  if s.any (fun r => decide (r.value = v)) then s
  else s ++ [{ value := v, lockedBy := none, lastSeen := none }]

/-- `preloadIdentifiers`: insert every expanded identifier in order into the
initially empty table. -/
def seed (ids : List String) : Store :=
  ids.foldl seedInsert []

/-- One mutating operation of the service, with arbitrary arguments. -/
inductive Step : Store → Store → Prop where
  | alloc (s : Store) (client : String) (now : Int) :
      Step s (allocate s client now).2
  | renewStep (s : Store) (client ident : String) (now : Int) :
      Step s (renew s client ident now).2
  | releaseStep (s : Store) (client ident : String) :
      Step s (release s client ident).2
  | reclaimStep (s : Store) (now staleTimeout : Int) :
      Step s (reclaimStale s now staleTimeout).2

/-- The states the table can be in: seeded at startup, then any sequence of
allocate, renew, release and reclaim operations. -/
inductive Reachable : Store → Prop where
  | seeded (ids : List String) : Reachable (seed ids)
  | step {s s' : Store} : Reachable s → Step s s' → Reachable s'

/-- At most one row is locked by any given client. -/
def holderUnique (s : Store) : Prop :=
  ∀ c : String, s.countP (fun r => decide (r.lockedBy = some c)) ≤ 1

/-- A row is free exactly when it has no `last_seen` timestamp. -/
def lockedIffSeen (s : Store) : Prop :=
  ∀ r ∈ s, (r.lockedBy = none ↔ r.lastSeen = none)

/-- No row is locked by the empty client id. -/
def noEmptyHolder (s : Store) : Prop :=
  ∀ r ∈ s, r.lockedBy ≠ some ""

/-- The UNIQUE constraint on the `identifier` column. -/
def valuesNodup (s : Store) : Prop :=
  (s.map IdentRecord.value).Nodup

/-- The conjunction of the store invariants every reachable state keeps. -/
def StoreInv (s : Store) : Prop :=
  valuesNodup s ∧ holderUnique s ∧ lockedIffSeen s ∧ noEmptyHolder s

/-! ### List helpers -/

theorem countP_value_le_one {s : Store} (hnod : valuesNodup s) (v : String) :
    s.countP (fun r => decide (r.value = v)) ≤ 1 := by
  induction s with
  | nil => simp
  | cons a t ih =>
    rw [valuesNodup, List.map_cons, List.nodup_cons] at hnod
    rw [List.countP_cons]
    by_cases hv : a.value = v
    · have ht : t.countP (fun r => decide (r.value = v)) = 0 := by
        rw [List.countP_eq_zero]
        intro r hr hcon
        rw [decide_eq_true_eq] at hcon
        exact hnod.1 (by rw [hv, ← hcon]; exact List.mem_map_of_mem _ hr)
      simp [ht, hv]
    · simpa [hv] using ih hnod.2

theorem find?_of_countP_le_one {p : IdentRecord → Bool} :
    ∀ {s : Store} {r : IdentRecord},
      s.countP p ≤ 1 → r ∈ s → p r = true → s.find? p = some r := by
  intro s
  induction s with
  | nil => intro r _ hr; cases hr
  | cons a t ih =>
    intro r hcount hmem hp
    rw [List.countP_cons] at hcount
    by_cases ha : p a = true
    · rw [List.find?_cons_of_pos _ ha]
      rcases List.mem_cons.mp hmem with h | h
      · rw [h]
      · exfalso
        rw [if_pos ha] at hcount
        have h0 : t.countP p = 0 := by omega
        exact List.countP_eq_zero.mp h0 r h hp
    · rw [List.find?_cons_of_neg _ ha]
      rcases List.mem_cons.mp hmem with h | h
      · exact absurd (h ▸ hp) ha
      · rw [if_neg ha] at hcount
        exact ih (by omega) h hp

theorem value_inj_of_mem {s : Store} (hnod : valuesNodup s) :
    ∀ {r r' : IdentRecord}, r ∈ s → r' ∈ s → r.value = r'.value → r = r' := by
  induction s with
  | nil => intro r r' hr; cases hr
  | cons a t ih =>
    intro r r' hr hr' hv
    rw [valuesNodup, List.map_cons, List.nodup_cons] at hnod
    rcases List.mem_cons.mp hr with h | h <;> rcases List.mem_cons.mp hr' with h' | h'
    · rw [h, h']
    · exact absurd (by rw [← h, hv]; exact List.mem_map_of_mem _ h') hnod.1
    · exact absurd (by rw [← h', ← hv]; exact List.mem_map_of_mem _ h) hnod.1
    · exact ih hnod.2 h h' hv

theorem store_getElem?_map (f : IdentRecord → IdentRecord) (s : Store) (i : Nat) :
    (s.map f)[i]? = (s[i]?).map f :=
  List.getElem?_map f s i

/-! ### The operations leave the `identifier` column unchanged -/

theorem values_map_eq {f : IdentRecord → IdentRecord}
    (hf : ∀ r, (f r).value = r.value) (s : Store) :
    (s.map f).map IdentRecord.value = s.map IdentRecord.value := by
  rw [List.map_map]
  exact List.map_congr_left fun a _ => hf a

theorem allocate_values (s : Store) (client : String) (now : Int) :
    ((allocate s client now).2).map IdentRecord.value = s.map IdentRecord.value := by
  unfold allocate
  split
  · rfl
  · split
    · rfl
    · split
      · rfl
      · exact values_map_eq (fun r => by split <;> rfl) s

theorem renew_values (s : Store) (client ident : String) (now : Int) :
    ((renew s client ident now).2).map IdentRecord.value = s.map IdentRecord.value := by
  unfold renew
  split
  · rfl
  · split
    · rfl
    · split
      · rfl
      · split
        · exact values_map_eq (fun r => by split <;> rfl) s
        · rfl

theorem release_values (s : Store) (client ident : String) :
    ((release s client ident).2).map IdentRecord.value = s.map IdentRecord.value :=
  values_map_eq (fun r => by split <;> rfl) s

theorem reclaim_values (s : Store) (now staleTimeout : Int) :
    ((reclaimStale s now staleTimeout).2).map IdentRecord.value = s.map IdentRecord.value :=
  values_map_eq (fun r => by split <;> rfl) s

/-! ### Reads characterized -/

theorem findByHolder_eq_none_iff {s : Store} {client : String} :
    findByHolder s client = none ↔ ∀ r ∈ s, r.lockedBy ≠ some client := by
  unfold findByHolder
  rw [List.find?_eq_none]
  simp only [decide_eq_true_eq]

theorem firstFree_mem {s : Store} {fr : IdentRecord} (h : firstFree s = some fr) :
    fr ∈ s :=
  List.mem_of_find?_eq_some h

theorem firstFree_free {s : Store} {fr : IdentRecord} (h : firstFree s = some fr) :
    fr.lockedBy = none := by
  have := List.find?_some h
  simpa using this

theorem firstFree_eq_none_iff {s : Store} :
    firstFree s = none ↔ ∀ r ∈ s, r.lockedBy ≠ none := by
  unfold firstFree
  rw [List.find?_eq_none]
  simp only [decide_eq_true_eq]

theorem findByValue_mem {s : Store} {v : String} {r : IdentRecord}
    (h : findByValue s v = some r) : r ∈ s :=
  List.mem_of_find?_eq_some h

theorem findByValue_value {s : Store} {v : String} {r : IdentRecord}
    (h : findByValue s v = some r) : r.value = v := by
  have := List.find?_some h
  simpa using this

theorem findByValue_eq_none_iff {s : Store} {v : String} :
    findByValue s v = none ↔ ∀ r ∈ s, r.value ≠ v := by
  unfold findByValue
  rw [List.find?_eq_none]
  simp only [decide_eq_true_eq]

/-! ### `holderUnique` preservation -/

theorem holderUnique_map_locked_preserved {f : IdentRecord → IdentRecord}
    (hf : ∀ r, (f r).lockedBy = r.lockedBy) {s : Store} (hu : holderUnique s) :
    holderUnique (s.map f) := by
  intro c
  rw [List.countP_map]
  have he : ((fun r => decide (r.lockedBy = some c)) ∘ f)
      = (fun r => decide (r.lockedBy = some c)) := by
    funext r
    simp only [Function.comp_apply]
    rw [hf r]
  rw [he]
  exact hu c

theorem holderUnique_map_clears {f : IdentRecord → IdentRecord}
    (hf : ∀ r, (f r).lockedBy = r.lockedBy ∨ (f r).lockedBy = none)
    {s : Store} (hu : holderUnique s) : holderUnique (s.map f) := by
  intro c
  rw [List.countP_map]
  refine le_trans (List.countP_mono_left ?_) (hu c)
  intro r _ hr
  simp only [Function.comp_apply, decide_eq_true_eq] at hr ⊢
  rcases hf r with h | h
  · rw [← h]
    exact hr
  · rw [h] at hr
    exact Option.noConfusion hr

theorem holderUnique_claim {s : Store} (client v : String) (now : Int)
    (hnod : valuesNodup s)
    (hno : ∀ r ∈ s, r.lockedBy ≠ some client)
    (hu : holderUnique s) :
    holderUnique (s.map fun r =>
      if r.value = v then { r with lockedBy := some client, lastSeen := some now }
      else r) := by
  intro c
  rw [List.countP_map]
  by_cases hc : c = client
  · subst hc
    have hle : s.countP ((fun r => decide (r.lockedBy = some c)) ∘ fun r =>
        if r.value = v then { r with lockedBy := some c, lastSeen := some now } else r)
        ≤ s.countP (fun r => decide (r.value = v)) := by
      refine List.countP_mono_left ?_
      intro r hr h
      simp only [Function.comp_apply, decide_eq_true_eq] at h ⊢
      by_cases hv : r.value = v
      · exact hv
      · rw [if_neg hv] at h
        exact absurd h (hno r hr)
    exact le_trans hle (countP_value_le_one hnod v)
  · refine le_trans (List.countP_mono_left ?_) (hu c)
    intro r _ h
    simp only [Function.comp_apply, decide_eq_true_eq] at h ⊢
    by_cases hv : r.value = v
    · rw [if_pos hv] at h
      exact absurd (Option.some.inj h).symm hc
    · rw [if_neg hv] at h
      exact h

/-! ### The four operations preserve the invariant -/

theorem allocate_storeInv (s : Store) (client : String) (now : Int)
    (h : StoreInv s) : StoreInv (allocate s client now).2 := by
  obtain ⟨hnod, hu, hls, hne⟩ := h
  unfold allocate
  split
  · exact ⟨hnod, hu, hls, hne⟩
  · rename_i hcne
    split
    · exact ⟨hnod, hu, hls, hne⟩
    · rename_i hfind
      split
      · exact ⟨hnod, hu, hls, hne⟩
      · rename_i fr hfree
        have hno : ∀ r ∈ s, r.lockedBy ≠ some client :=
          findByHolder_eq_none_iff.mp hfind
        refine ⟨?_, ?_, ?_, ?_⟩
        · show valuesNodup (List.map _ s)
          unfold valuesNodup
          rw [values_map_eq (fun r => by split <;> rfl)]
          exact hnod
        · exact holderUnique_claim client fr.value now hnod hno hu
        · intro r' hr'
          rcases List.mem_map.mp hr' with ⟨r, hr, heq⟩
          subst heq
          by_cases hv : r.value = fr.value
          · rw [if_pos hv]
            constructor
            · intro hcon
              exact Option.noConfusion hcon
            · intro hcon
              exact Option.noConfusion hcon
          · rw [if_neg hv]
            exact hls r hr
        · intro r' hr'
          rcases List.mem_map.mp hr' with ⟨r, hr, heq⟩
          subst heq
          by_cases hv : r.value = fr.value
          · rw [if_pos hv]
            intro hcon
            exact hcne (Option.some.inj hcon)
          · rw [if_neg hv]
            exact hne r hr

theorem renew_storeInv (s : Store) (client ident : String) (now : Int)
    (h : StoreInv s) : StoreInv (renew s client ident now).2 := by
  obtain ⟨hnod, hu, hls, hne⟩ := h
  unfold renew
  split
  · exact ⟨hnod, hu, hls, hne⟩
  · split
    · exact ⟨hnod, hu, hls, hne⟩
    · split
      · exact ⟨hnod, hu, hls, hne⟩
      · split
        · refine ⟨?_, ?_, ?_, ?_⟩
          · show valuesNodup (List.map _ s)
            unfold valuesNodup
            rw [values_map_eq (fun r => by split <;> rfl)]
            exact hnod
          · exact holderUnique_map_locked_preserved (fun r => by split <;> rfl) hu
          · intro r' hr'
            rcases List.mem_map.mp hr' with ⟨r, hr, heq⟩
            subst heq
            by_cases hcond : r.value = ident ∧ r.lockedBy = some client
            · rw [if_pos hcond]
              constructor
              · intro hcon
                exact absurd (hcon ▸ hcond.2) (by simp)
              · intro hcon
                exact Option.noConfusion hcon
            · rw [if_neg hcond]
              exact hls r hr
          · intro r' hr'
            rcases List.mem_map.mp hr' with ⟨r, hr, heq⟩
            subst heq
            by_cases hcond : r.value = ident ∧ r.lockedBy = some client
            · rw [if_pos hcond]
              exact hne r hr
            · rw [if_neg hcond]
              exact hne r hr
        · exact ⟨hnod, hu, hls, hne⟩

theorem release_storeInv (s : Store) (client ident : String)
    (h : StoreInv s) : StoreInv (release s client ident).2 := by
  obtain ⟨hnod, hu, hls, hne⟩ := h
  refine ⟨?_, ?_, ?_, ?_⟩
  · show valuesNodup (List.map _ s)
    unfold valuesNodup
    rw [values_map_eq (fun r => by split <;> rfl)]
    exact hnod
  · refine holderUnique_map_clears (fun r => ?_) hu
    by_cases hcond : r.value = ident ∧ r.lockedBy = some client
    · rw [if_pos hcond]
      exact Or.inr rfl
    · rw [if_neg hcond]
      exact Or.inl rfl
  · intro r' hr'
    rcases List.mem_map.mp hr' with ⟨r, hr, heq⟩
    subst heq
    by_cases hcond : r.value = ident ∧ r.lockedBy = some client
    · rw [if_pos hcond]
      simp
    · rw [if_neg hcond]
      exact hls r hr
  · intro r' hr'
    rcases List.mem_map.mp hr' with ⟨r, hr, heq⟩
    subst heq
    by_cases hcond : r.value = ident ∧ r.lockedBy = some client
    · rw [if_pos hcond]
      intro hcon
      exact Option.noConfusion hcon
    · rw [if_neg hcond]
      exact hne r hr

theorem reclaim_storeInv (s : Store) (now staleTimeout : Int)
    (h : StoreInv s) : StoreInv (reclaimStale s now staleTimeout).2 := by
  obtain ⟨hnod, hu, hls, hne⟩ := h
  refine ⟨?_, ?_, ?_, ?_⟩
  · show valuesNodup (List.map _ s)
    unfold valuesNodup
    rw [values_map_eq (fun r => by split <;> rfl)]
    exact hnod
  · refine holderUnique_map_clears (fun r => ?_) hu
    by_cases hcond : isStale r (now - staleTimeout)
    · rw [if_pos hcond]
      exact Or.inr rfl
    · rw [if_neg hcond]
      exact Or.inl rfl
  · intro r' hr'
    rcases List.mem_map.mp hr' with ⟨r, hr, heq⟩
    subst heq
    by_cases hcond : isStale r (now - staleTimeout)
    · rw [if_pos hcond]
      simp
    · rw [if_neg hcond]
      exact hls r hr
  · intro r' hr'
    rcases List.mem_map.mp hr' with ⟨r, hr, heq⟩
    subst heq
    by_cases hcond : isStale r (now - staleTimeout)
    · rw [if_pos hcond]
      intro hcon
      exact Option.noConfusion hcon
    · rw [if_neg hcond]
      exact hne r hr

/-! ### Seeding establishes the invariant -/

theorem seedInsert_storeInv (s : Store) (v : String)
    (h : StoreInv s) : StoreInv (seedInsert s v) := by
  obtain ⟨hnod, hu, hls, hne⟩ := h
  unfold seedInsert
  split
  · exact ⟨hnod, hu, hls, hne⟩
  · rename_i hany
    have hfresh : ∀ r ∈ s, r.value ≠ v := by
      intro r hr hcon
      exact hany (List.any_eq_true.mpr ⟨r, hr, by simp [hcon]⟩)
    refine ⟨?_, ?_, ?_, ?_⟩
    · unfold valuesNodup
      rw [List.map_append]
      rw [List.nodup_append]
      refine ⟨hnod, by simp, ?_⟩
      intro a ha hb
      simp only [List.map_cons, List.map_nil, List.mem_singleton] at hb
      rcases List.mem_map.mp ha with ⟨r, hr, heq⟩
      exact hfresh r hr (by rw [heq, hb])
    · intro c
      rw [List.countP_append]
      have : List.countP (fun r => decide (r.lockedBy = some c))
          [({ value := v, lockedBy := none, lastSeen := none } : IdentRecord)] = 0 := by
        simp
      rw [this]
      simpa using hu c
    · intro r hr
      rcases List.mem_append.mp hr with h | h
      · exact hls r h
      · rw [List.mem_singleton.mp h]
        simp
    · intro r hr
      rcases List.mem_append.mp hr with h | h
      · exact hne r h
      · rw [List.mem_singleton.mp h]
        intro hcon
        exact Option.noConfusion hcon

theorem foldl_seedInsert_storeInv :
    ∀ (ids : List String) (s : Store), StoreInv s → StoreInv (ids.foldl seedInsert s) := by
  intro ids
  induction ids with
  | nil => intro s h; exact h
  | cons a t ih =>
    intro s h
    exact ih (seedInsert s a) (seedInsert_storeInv s a h)

theorem seed_storeInv (ids : List String) : StoreInv (seed ids) := by
  refine foldl_seedInsert_storeInv ids [] ⟨?_, ?_, ?_, ?_⟩
  · simp [valuesNodup]
  · intro c
    exact Nat.zero_le 1
  · intro r hr
    cases hr
  · intro r hr
    cases hr

/-! ### Every reachable state keeps the invariant -/

theorem step_storeInv {s s' : Store} (h : StoreInv s) (hs : Step s s') : StoreInv s' := by
  cases hs with
  | alloc client now => exact allocate_storeInv s client now h
  | renewStep client ident now => exact renew_storeInv s client ident now h
  | releaseStep client ident => exact release_storeInv s client ident h
  | reclaimStep now staleTimeout => exact reclaim_storeInv s now staleTimeout h

theorem reachable_storeInv {s : Store} (h : Reachable s) : StoreInv s := by
  induction h with
  | seeded ids => exact seed_storeInv ids
  | step _ hs ih => exact step_storeInv ih hs

/-! ### The claims -/

/-- C1: in any store where at most one row is locked per client, an allocate
call from a client that already holds an identifier returns exactly that
identifier and leaves the store — every record, hence the free count —
unchanged. -/
theorem allocate_idempotent_per_holder
    (s : Store) (client : String) (now : Int) (r : IdentRecord)
    (hu : holderUnique s) (hc : client ≠ "")
    (hr : r ∈ s) (hheld : r.lockedBy = some client) :
    allocate s client now = (AllocResult.ok r.value, s) := by
  have hfind : findByHolder s client = some r :=
    find?_of_countP_le_one (hu client) hr (by simp [hheld])
  simp only [allocate, if_neg hc, hfind]

theorem allocate_idempotent_per_holder_witness :
    allocate [{ value := "id-1", lockedBy := some "vm-a", lastSeen := some 0 }] "vm-a" 7
      = (AllocResult.ok "id-1",
         [{ value := "id-1", lockedBy := some "vm-a", lastSeen := some 0 }]) :=
  allocate_idempotent_per_holder
    [{ value := "id-1", lockedBy := some "vm-a", lastSeen := some 0 }] "vm-a" 7
    { value := "id-1", lockedBy := some "vm-a", lastSeen := some 0 }
    (fun _ => List.countP_le_length _) (by decide) (by decide) rfl

/-- C2: every state reachable from a seeded pool by any sequence of
allocate, renew, release and reclaim operations locks each client on at
most one row. -/
theorem reachable_holder_unique {s : Store} (h : Reachable s) : holderUnique s :=
  (reachable_storeInv h).2.1

theorem reachable_holder_unique_witness :
    holderUnique (seed ["id-1", "id-2"]) :=
  reachable_holder_unique (Reachable.seeded ["id-1", "id-2"])

/-- C3: the code evaluated at the failing input.  With `id-1` present in the
pool but free, a renew (liveness probe) for it returns the internal-error
outcome — the handler scans the NULL `locked_by` into a Go `string`, which
fails — instead of the ownership conflict with an empty holder that the
specification requires; the store is left unchanged. -/
theorem renew_free_identifier_gives_internal_error :
    renew [{ value := "id-1", lockedBy := none, lastSeen := none }] "vm-a" "id-1" 17
      = (RenewResult.scanError, [{ value := "id-1", lockedBy := none, lastSeen := none }]) := by
  rfl

/-- The sweep predicate, spelled as a proposition. -/
theorem isStale_iff (r : IdentRecord) (t : Int) :
    isStale r t = true
      ↔ (r.lockedBy ≠ none ∧ ∃ ts : Int, r.lastSeen = some ts ∧ ts < t) := by
  rcases r with ⟨v, lb, ls⟩
  cases lb <;> cases ls <;> simp [isStale]

theorem isStale_ne_clear {r : IdentRecord} {t : Int} (h : isStale r t = true) :
    r ≠ { r with lockedBy := none, lastSeen := none } := by
  intro hcon
  have hlb : r.lockedBy ≠ none := ((isStale_iff r t).mp h).1
  exact hlb (congrArg IdentRecord.lockedBy hcon)

theorem length_filter_zip_map_ne (f : IdentRecord → IdentRecord) :
    ∀ s : Store,
      ((s.zip (s.map f)).filter (fun pr => decide (pr.1 ≠ pr.2))).length
        = s.countP (fun r => decide (r ≠ f r)) := by
  intro s
  induction s with
  | nil => rfl
  | cons a l ih =>
    rw [List.map_cons, List.zip_cons_cons, List.filter_cons, List.countP_cons]
    by_cases ha : a ≠ f a
    · rw [if_pos (by simpa using ha)]
      simp only [List.length_cons, ih]
      rw [if_pos (by simpa using ha)]
    · rw [if_neg (by simpa using ha), if_neg (by simpa using ha), Nat.add_zero]
      exact ih

/-- C4: a reclaim sweep at `now` with the configured timeout keeps every
row's slot (same length), returns exactly the number of rows it changed,
frees precisely the held rows whose timestamp is strictly older than
`now - stale_timeout`, and leaves untouched every free row and every row
renewed at or after that threshold. -/
theorem reclaimStale_frees_exactly_stale (s : Store) (now staleTimeout : Int) :
    ((reclaimStale s now staleTimeout).2.length = s.length)
  ∧ ((reclaimStale s now staleTimeout).1
      = ((s.zip (reclaimStale s now staleTimeout).2).filter
          (fun pr => decide (pr.1 ≠ pr.2))).length)
  ∧ (∀ i : Nat, ∀ r : IdentRecord, s[i]? = some r →
      ((r.lockedBy ≠ none ∧ ∃ ts : Int, r.lastSeen = some ts ∧ ts < now - staleTimeout) →
        (reclaimStale s now staleTimeout).2[i]?
          = some { value := r.value, lockedBy := none, lastSeen := none })
      ∧ ((r.lockedBy = none ∨ ∀ ts : Int, r.lastSeen = some ts → now - staleTimeout ≤ ts) →
        (reclaimStale s now staleTimeout).2[i]? = some r)) := by
  refine ⟨List.length_map s _, ?_, ?_⟩
  · show s.countP (fun r => isStale r (now - staleTimeout))
        = ((s.zip (s.map fun r => if isStale r (now - staleTimeout) then
              { r with lockedBy := none, lastSeen := none } else r)).filter
            (fun pr => decide (pr.1 ≠ pr.2))).length
    rw [length_filter_zip_map_ne]
    have he : (fun r => decide (r ≠ if isStale r (now - staleTimeout) then
        { r with lockedBy := none, lastSeen := none } else r))
        = (fun r => isStale r (now - staleTimeout)) := by
      funext r
      by_cases h : isStale r (now - staleTimeout) = true
      · rw [if_pos h, h, decide_eq_true_eq]
        exact isStale_ne_clear h
      · rw [if_neg h]
        have hd : decide (r ≠ r) = false := by simp
        rw [hd]
        cases hb : isStale r (now - staleTimeout) with
        | true => exact absurd hb h
        | false => rfl
    rw [he]
  · intro i r hir
    constructor
    · intro hP
      have hs : isStale r (now - staleTimeout) = true := (isStale_iff r _).mpr hP
      show (s.map _)[i]? = _
      rw [store_getElem?_map, hir, Option.map_some']
      rw [if_pos hs]
    · intro hP
      have hs : ¬(isStale r (now - staleTimeout) = true) := by
        intro hcon
        obtain ⟨hlb, ts, hts, hlt⟩ := (isStale_iff r _).mp hcon
        rcases hP with h | h
        · exact hlb h
        · exact absurd hlt (not_lt.mpr (h ts hts))
      show (s.map _)[i]? = _
      rw [store_getElem?_map, hir, Option.map_some']
      rw [if_neg hs]

/-- C5: release always answers success; a row currently held by the calling
client under the given identifier is freed (holder and timestamp cleared),
and every other row — the identifier being free, unknown, or held by a
different client — is unchanged. -/
theorem release_success_and_frame (s : Store) (client v : String) :
    ((release s client v).1 = ReleaseResult.success)
  ∧ ((release s client v).2.length = s.length)
  ∧ (∀ i : Nat, ∀ r : IdentRecord, s[i]? = some r →
      ((r.value = v ∧ r.lockedBy = some client) →
        (release s client v).2[i]?
          = some { value := r.value, lockedBy := none, lastSeen := none })
      ∧ ((r.value ≠ v ∨ r.lockedBy ≠ some client) →
        (release s client v).2[i]? = some r)) := by
  refine ⟨rfl, List.length_map s _, ?_⟩
  intro i r hir
  constructor
  · intro hcond
    show (s.map _)[i]? = _
    rw [store_getElem?_map, hir, Option.map_some']
    rw [if_pos hcond]
  · intro hcond
    have hncond : ¬(r.value = v ∧ r.lockedBy = some client) := by
      intro hcon
      rcases hcond with h | h
      · exact h hcon.1
      · exact h hcon.2
    show (s.map _)[i]? = _
    rw [store_getElem?_map, hir, Option.map_some']
    rw [if_neg hncond]

/-- C6: in every reachable state a row's holder is absent exactly when its
renewal timestamp is absent. -/
theorem reachable_locked_iff_seen {s : Store} (h : Reachable s) : lockedIffSeen s :=
  (reachable_storeInv h).2.2.1

theorem reachable_locked_iff_seen_witness :
    lockedIffSeen (seed ["id-1"]) :=
  reachable_locked_iff_seen (Reachable.seeded ["id-1"])

/-- C7: a renew (liveness probe) with nonempty, validated inputs succeeds
exactly when the identifier exists and is currently held by the calling
client; on success only that row's timestamp becomes `now` (its identifier
and holder, and all other rows, are unchanged); on any failure the store is
untouched. -/
theorem renew_success_iff (s : Store) (client v : String) (now : Int)
    (hc : client ≠ "") (hv : v ≠ "") (hnod : valuesNodup s) :
    ((renew s client v now).1 = RenewResult.ok
        ↔ ∃ r ∈ s, r.value = v ∧ r.lockedBy = some client)
  ∧ ((renew s client v now).1 ≠ RenewResult.ok → (renew s client v now).2 = s)
  ∧ ((renew s client v now).1 = RenewResult.ok →
      ∀ i : Nat, ∀ r : IdentRecord, s[i]? = some r →
        (renew s client v now).2[i]?
          = some (if r.value = v ∧ r.lockedBy = some client
                  then { r with lastSeen := some now } else r)) := by
  have hne : ¬(client = "" ∨ v = "") := not_or.mpr ⟨hc, hv⟩
  rcases hfv : findByValue s v with _ | r0
  · have hall := findByValue_eq_none_iff.mp hfv
    have hA : renew s client v now = (RenewResult.notFound, s) := by
      simp only [renew, if_neg hne, hfv]
    rw [hA]
    refine ⟨?_, fun _ => rfl, ?_⟩
    · constructor
      · intro hcon
        simp at hcon
      · intro ⟨r, hr, hrv, _⟩
        exact absurd hrv (hall r hr)
    · intro hcon
      simp at hcon
  · have hr0mem := findByValue_mem hfv
    have hr0v := findByValue_value hfv
    rcases hlb : r0.lockedBy with _ | h0
    · have hA : renew s client v now = (RenewResult.scanError, s) := by
        simp only [renew, if_neg hne, hfv, hlb]
      rw [hA]
      refine ⟨?_, fun _ => rfl, ?_⟩
      · constructor
        · intro hcon
          simp at hcon
        · intro ⟨r, hr, hrv, hrl⟩
          have : r = r0 := value_inj_of_mem hnod hr hr0mem (by rw [hrv, hr0v])
          rw [this, hlb] at hrl
          exact Option.noConfusion hrl
      · intro hcon
        simp at hcon
    · by_cases hh : h0 = client
      · have hA : renew s client v now
            = (RenewResult.ok,
               s.map fun r2 =>
                 if r2.value = v ∧ r2.lockedBy = some client then
                   { r2 with lastSeen := some now }
                 else r2) := by
          simp only [renew, if_neg hne, hfv, hlb, if_pos hh]
        rw [hA]
        refine ⟨?_, ?_, ?_⟩
        · constructor
          · intro _
            exact ⟨r0, hr0mem, hr0v, by rw [hlb, hh]⟩
          · intro _
            rfl
        · intro hcon
          exact absurd rfl hcon
        · intro _ i r hir
          show (s.map _)[i]? = _
          rw [store_getElem?_map, hir, Option.map_some']
      · have hA : renew s client v now = (RenewResult.conflict h0, s) := by
          simp only [renew, if_neg hne, hfv, hlb, if_neg hh]
        rw [hA]
        refine ⟨?_, fun _ => rfl, ?_⟩
        · constructor
          · intro hcon
            simp at hcon
          · intro ⟨r, hr, hrv, hrl⟩
            have : r = r0 := value_inj_of_mem hnod hr hr0mem (by rw [hrv, hr0v])
            rw [this, hlb] at hrl
            exact (hh (Option.some.inj hrl)).elim
        · intro hcon
          simp at hcon

theorem renew_success_iff_witness :
    ((renew [{ value := "id-1", lockedBy := some "vm-a", lastSeen := some 0 }]
        "vm-a" "id-1" 9).1 = RenewResult.ok
      ↔ ∃ r ∈ [({ value := "id-1", lockedBy := some "vm-a", lastSeen := some 0 } :
          IdentRecord)], r.value = "id-1" ∧ r.lockedBy = some "vm-a") :=
  (renew_success_iff
    [{ value := "id-1", lockedBy := some "vm-a", lastSeen := some 0 }]
    "vm-a" "id-1" 9 (by decide) (by decide) (by unfold valuesNodup; decide)).1

/-- The one free row the allocation subquery picks, and how the UPDATE by
identifier rewrites the table around it when identifiers are unique. -/
theorem claim_update_spec :
    ∀ (s : Store), valuesNodup s → ∀ {fr : IdentRecord}, firstFree s = some fr →
      ∀ (client : String) (now : Int),
      ∃ i : Nat, s[i]? = some fr ∧
        ((s.map fun r => if r.value = fr.value
            then { r with lockedBy := some client, lastSeen := some now } else r)[i]?
          = some { value := fr.value, lockedBy := some client, lastSeen := some now }) ∧
        ∀ j : Nat, j ≠ i →
          ((s.map fun r => if r.value = fr.value
              then { r with lockedBy := some client, lastSeen := some now } else r)[j]?
            = s[j]?) := by
  intro s
  induction s with
  | nil =>
    intro _ fr h
    simp [firstFree] at h
  | cons a l ih =>
    intro hnod fr hf client now
    rw [valuesNodup, List.map_cons, List.nodup_cons] at hnod
    by_cases ha : a.lockedBy = none
    · have hfa : firstFree (a :: l) = some a := by
        unfold firstFree
        rw [List.find?_cons_of_pos _ (by simp [ha])]
      rw [hfa] at hf
      obtain rfl : a = fr := Option.some.inj hf
      refine ⟨0, List.getElem?_cons_zero, ?_, ?_⟩
      · rw [List.map_cons, List.getElem?_cons_zero, if_pos rfl]
      · intro j hj
        rcases j with _ | k
        · exact absurd rfl hj
        · rw [List.map_cons, List.getElem?_cons_succ, List.getElem?_cons_succ]
          have hid : l.map (fun r => if r.value = a.value
              then { r with lockedBy := some client, lastSeen := some now } else r) = l := by
            have : ∀ r ∈ l, (if r.value = a.value
                then ({ r with lockedBy := some client, lastSeen := some now } : IdentRecord)
                else r) = id r := by
              intro r hr
              rw [if_neg]
              · rfl
              · intro hcon
                exact hnod.1 (hcon ▸ List.mem_map_of_mem _ hr)
            rw [List.map_congr_left this, List.map_id]
          rw [hid]
    · have hfl : firstFree (a :: l) = firstFree l := by
        unfold firstFree
        rw [List.find?_cons_of_neg _ (by simp [ha])]
      rw [hfl] at hf
      have hfrmem : fr ∈ l := firstFree_mem hf
      have hav : ¬(a.value = fr.value) := by
        intro hcon
        exact hnod.1 (hcon ▸ List.mem_map_of_mem _ hfrmem)
      obtain ⟨i, h1, h2, h3⟩ := ih hnod.2 hf client now
      refine ⟨i + 1, ?_, ?_, ?_⟩
      · rw [List.getElem?_cons_succ]
        exact h1
      · rw [List.map_cons, List.getElem?_cons_succ]
        exact h2
      · intro j hj
        rcases j with _ | k
        · rw [List.map_cons, List.getElem?_cons_zero, List.getElem?_cons_zero, if_neg hav]
        · rw [List.map_cons, List.getElem?_cons_succ, List.getElem?_cons_succ]
          exact h3 k (fun hcon => hj (by rw [hcon]))

/-- C8: for a nonempty client id that holds nothing, allocation reports an
exhausted pool exactly when no row is free, and then changes nothing;
otherwise it answers with the identifier of one previously free row, now
leased to the client with timestamp `now`, and leaves every other row
unchanged. -/
theorem allocate_pool_exhausted_iff (s : Store) (client : String) (now : Int)
    (hc : client ≠ "") (hnod : valuesNodup s)
    (hno : ∀ r ∈ s, r.lockedBy ≠ some client) :
    ((allocate s client now).1 = AllocResult.poolExhausted ↔ ∀ r ∈ s, r.lockedBy ≠ none)
  ∧ ((allocate s client now).1 = AllocResult.poolExhausted → (allocate s client now).2 = s)
  ∧ ((∃ r ∈ s, r.lockedBy = none) →
      ∃ i : Nat, ∃ fr : IdentRecord, s[i]? = some fr ∧ fr.lockedBy = none
        ∧ (allocate s client now).1 = AllocResult.ok fr.value
        ∧ (allocate s client now).2[i]?
            = some { value := fr.value, lockedBy := some client, lastSeen := some now }
        ∧ ∀ j : Nat, j ≠ i → (allocate s client now).2[j]? = s[j]?) := by
  have hfind : findByHolder s client = none := findByHolder_eq_none_iff.mpr hno
  rcases hfree : firstFree s with _ | fr
  · have hall := firstFree_eq_none_iff.mp hfree
    have hA : allocate s client now = (AllocResult.poolExhausted, s) := by
      simp only [allocate, if_neg hc, hfind, hfree]
    rw [hA]
    refine ⟨⟨fun _ => hall, fun _ => rfl⟩, fun _ => rfl, ?_⟩
    · intro ⟨r, hr, hrl⟩
      exact absurd hrl (hall r hr)
  · have hA : allocate s client now
        = (AllocResult.ok fr.value,
           s.map fun r => if r.value = fr.value
             then { r with lockedBy := some client, lastSeen := some now } else r) := by
      simp only [allocate, if_neg hc, hfind, hfree]
    obtain ⟨i, h1, h2, h3⟩ := claim_update_spec s hnod hfree client now
    rw [hA]
    refine ⟨?_, ?_, ?_⟩
    · constructor
      · intro hcon
        simp at hcon
      · intro hall
        exact absurd (firstFree_free hfree) (hall fr (firstFree_mem hfree))
    · intro hcon
      simp at hcon
    · intro _
      exact ⟨i, fr, h1, firstFree_free hfree, rfl, h2, h3⟩

theorem allocate_pool_exhausted_iff_witness :
    ((allocate [{ value := "id-1", lockedBy := some "vm-b", lastSeen := some 0 }]
        "vm-a" 3).1 = AllocResult.poolExhausted
      ↔ ∀ r ∈ [({ value := "id-1", lockedBy := some "vm-b", lastSeen := some 0 } :
          IdentRecord)], r.lockedBy ≠ none) :=
  (allocate_pool_exhausted_iff
    [{ value := "id-1", lockedBy := some "vm-b", lastSeen := some 0 }]
    "vm-a" 3 (by decide) (by unfold valuesNodup; decide) (by decide)).1

/-- C10: no reachable state locks a row for the empty client id, and the
unvalidated release handler called with an empty client id answers success
while changing nothing, whatever identifier it names. -/
theorem no_empty_client_holder {s : Store} (h : Reachable s) :
    noEmptyHolder s ∧ ∀ v : String, release s "" v = (ReleaseResult.success, s) := by
  have hinv := reachable_storeInv h
  refine ⟨hinv.2.2.2, ?_⟩
  intro v
  unfold release
  have hmap : (s.map fun r =>
      if r.value = v ∧ r.lockedBy = some "" then
        { r with lockedBy := none, lastSeen := none }
      else r) = s := by
    have hid : ∀ r ∈ s, (if r.value = v ∧ r.lockedBy = some "" then
        ({ r with lockedBy := none, lastSeen := none } : IdentRecord)
      else r) = id r := by
      intro r hr
      rw [if_neg]
      · rfl
      · intro hcon
        exact hinv.2.2.2 r hr hcon.2
    rw [List.map_congr_left hid, List.map_id]
  rw [hmap]

theorem no_empty_client_holder_witness :
    noEmptyHolder (seed ["id-1"])
  ∧ ∀ v : String, release (seed ["id-1"]) "" v = (ReleaseResult.success, seed ["id-1"]) :=
  no_empty_client_holder (Reachable.seeded ["id-1"])

/-! ### Pattern expansion (`expandPattern` in the config file) -/

/-- `strings.Index(pattern, c)` for the one-byte needle `c`: the position of
its first occurrence, or none for Go's `-1`. -/
def charIndex (c : Char) : List Char → Option Nat
  | [] => none
  | a :: rest =>
    if a = c then some 0 else (charIndex c rest).map (· + 1)

theorem charIndex_lt_length {c : Char} :
    ∀ {l : List Char} {i : Nat}, charIndex c l = some i → i < l.length := by
  intro l
  induction l with
  | nil =>
    intro i h
    exact Option.noConfusion h
  | cons a rest ih =>
    intro i h
    rw [charIndex] at h
    by_cases ha : a = c
    · rw [if_pos ha] at h
      obtain rfl := Option.some.inj h
      exact Nat.succ_pos _
    · rw [if_neg ha] at h
      rcases hi : charIndex c rest with _ | j
      · rw [hi] at h
        exact Option.noConfusion h
      · rw [hi] at h
        obtain rfl := Option.some.inj h
        have := ih hi
        simp only [List.length_cons]
        omega

/-- `strings.Split(rangePart, "-")`: the (possibly empty) runs between
dashes, empty runs preserved. -/
def splitDash : List Char → List (List Char)
  | [] => [[]]
  | c :: rest =>
    if c = '-' then [] :: splitDash rest
    else
      match splitDash rest with
      | [] => [[c]]
      | p :: ps => (c :: p) :: ps

/-- The digit run of `strconv.Atoi` after the optional sign: nonempty and
all decimal digits, read as a number. -/
def digitsVal? (cs : List Char) : Option Nat :=
  if cs.isEmpty then none
  else if cs.all (fun c => c.isDigit) then
    some (cs.foldl (fun acc c => acc * 10 + (c.toNat - Char.toNat '0')) 0)
  else none

/-- `strconv.Atoi`: optional `+`/`-` sign, then decimal digits; a value
outside the 64-bit int range is `ErrRange`, which is a failure for this
caller. -/
def atoi? (cs : List Char) : Option Int :=
  match cs with
  | '+' :: rest =>
    (digitsVal? rest).bind fun n =>
      if n ≤ 9223372036854775807 then some (n : Int) else none
  | '-' :: rest =>
    (digitsVal? rest).bind fun n =>
      if n ≤ 9223372036854775808 then some (-(n : Int)) else none
  | _ =>
    (digitsVal? cs).bind fun n =>
      if n ≤ 9223372036854775807 then some (n : Int) else none

/-- `fmt.Sprintf("%d", i)`. -/
def intChars (i : Int) : List Char :=
  if i < 0 then '-' :: Nat.toDigits 10 i.natAbs
  else Nat.toDigits 10 i.toNat

/-- Go's `for i := startNum; i <= endNum; i++` iteration values. -/
def intRange (a b : Int) : List Int :=
  (List.range (b + 1 - a).toNat).map fun k => a + k

/-- `expandPattern` (config file): locate the first `[` and the first `]`;
without both in order, return the pattern as one identifier; split the
bracketed part on `-`; unless that yields exactly two numeric bounds in
order, return the pattern as one identifier; otherwise expand every value
of the range against the recursively expanded suffix. -/
def expandPattern (p : List Char) : List (List Char) :=
  match charIndex '[' p with
  | none => [p]
  | some st =>
    match _hen : charIndex ']' p with
    | none => [p]
    | some en =>
      if st > en then [p]
      else
        match splitDash ((p.drop (st + 1)).take (en - (st + 1))) with
        | [a, b] =>
          match atoi? a, atoi? b with
          | some x, some y =>
            if x > y then [p]
            else
              (intRange x y).flatMap fun i =>
                (expandPattern (p.drop (en + 1))).map fun sfx =>
                  p.take st ++ intChars i ++ sfx
          | _, _ => [p]
        | _ => [p]
termination_by p.length
decreasing_by
  have hlt := charIndex_lt_length _hen
  simp only [List.length_drop]
  omega

/-- The first bracketed segment fails to be a well-formed numeric range
`a-b` with `a ≤ b`: a bracket is missing or out of order, the split on `-`
does not give exactly two parts, a bound does not parse as a number, or the
bounds are out of order. -/
def firstRangeMalformed (p : List Char) : Prop :=
  match charIndex '[' p, charIndex ']' p with
  | some st, some en =>
    en < st ∨
      (match splitDash ((p.drop (st + 1)).take (en - (st + 1))) with
       | [a, b] =>
         atoi? a = none ∨ atoi? b = none
           ∨ ∃ x y : Int, atoi? a = some x ∧ atoi? b = some y ∧ y < x
       | _ => True)
  | _, _ => True

/-- C9: pattern expansion is total and never rejects its input — whenever
the first bracketed segment is not a well-formed numeric range, the pattern
is returned unchanged, brackets included, as the single identifier. -/
theorem expandPattern_malformed_unchanged (p : List Char)
    (h : firstRangeMalformed p) : expandPattern p = [p] := by
  unfold firstRangeMalformed at h
  rw [expandPattern]
  rcases h1 : charIndex '[' p with _ | st
  · rfl
  · rw [h1] at h
    rcases h2 : charIndex ']' p with _ | en
    · rfl
    · rw [h2] at h
      dsimp only
      by_cases hlt : st > en
      · rw [if_pos hlt]
      · rw [if_neg hlt]
        rcases h with h | h
        · exact absurd h hlt
        · rcases h3 : splitDash ((p.drop (st + 1)).take (en - (st + 1))) with _ | ⟨a, tl⟩
          · rfl
          · rcases tl with _ | ⟨b, tl2⟩
            · rfl
            · rcases tl2 with _ | ⟨c, tl3⟩
              · rw [h3] at h
                dsimp only at h ⊢
                rcases h4 : atoi? a with _ | x
                · rfl
                · rcases h5 : atoi? b with _ | y
                  · rfl
                  · dsimp only
                    rcases h with h | h | h
                    · rw [h] at h4
                      exact Option.noConfusion h4
                    · rw [h] at h5
                      exact Option.noConfusion h5
                    · obtain ⟨x', y', hx, hy, hyx⟩ := h
                      rw [h4] at hx
                      rw [h5] at hy
                      obtain rfl := Option.some.inj hx
                      obtain rfl := Option.some.inj hy
                      rw [if_pos (by omega)]
              · rfl

theorem expandPattern_malformed_unchanged_witness :
    expandPattern ['v', 'm', '[', '1', '-', 'x', ']']
      = [['v', 'm', '[', '1', '-', 'x', ']']] :=
  expandPattern_malformed_unchanged ['v', 'm', '[', '1', '-', 'x', ']']
    (Or.inr (Or.inr (Or.inl rfl)))

end AsgRegistry
